import Mathlib

/-!
Verification of the manifest layer of icechunk (`src/format/manifest.rs`):
chunk-coordinate codec, chunk payload model, columnar manifest table with
point lookup / row decode / iteration, and the streaming table builder.

Modelling conventions:
* Machine integers are `Nat`; where the source truncates or bounds-checks a
  width (`u32`, `u64`) the model carries the `% 2 ^ w` or the bound
  explicitly.
* Byte strings are `List Nat` (each entry a byte value).
* Rust `Option` is Lean `Option`; Rust `Result` is `Except`.
* A Rust function that can panic is modelled with an outer `Option` layer:
  `none` is a panic, `some x` is a normal return of `x`.
* The asynchronous stream consumed by the builder is modelled as the list
  of its items, consumed strictly in order.
-/

/-- Node / array identifier (`NodeId`, an unsigned 32-bit integer in the
repository; no arithmetic is performed on it). -/
abbrev NodeId := Nat

/-- Big-endian bytes of a `u64` value (`u64::to_be_bytes`): eight bytes,
most significant first. -/
def u64ToBeBytes (n : Nat) : List Nat :=
  [n / 2 ^ 56 % 256, n / 2 ^ 48 % 256, n / 2 ^ 40 % 256, n / 2 ^ 32 % 256,
   n / 2 ^ 24 % 256, n / 2 ^ 16 % 256, n / 2 ^ 8 % 256, n % 256]

/-- `u64::from_be_bytes(chunk.try_into().expect(..))`: the `try_into`
panics (`none`) unless the chunk has exactly 8 bytes; otherwise the
big-endian value of the 8 bytes. -/
def u64FromBeBytes : List Nat → Option Nat
  | [b0, b1, b2, b3, b4, b5, b6, b7] =>
      some (b0 * 2 ^ 56 + b1 * 2 ^ 48 + b2 * 2 ^ 40 + b3 * 2 ^ 32 +
            b4 * 2 ^ 24 + b5 * 2 ^ 16 + b6 * 2 ^ 8 + b7)
  | _ => none

/-- `slice.iter().chunks(8)` (itertools): consecutive groups of 8, the
last group possibly shorter. -/
def chunksOf8 : List Nat → List (List Nat)
  | [] => []
  | b0 :: b1 :: b2 :: b3 :: b4 :: b5 :: b6 :: b7 :: rest =>
      [b0, b1, b2, b3, b4, b5, b6, b7] :: chunksOf8 rest
  | l => [l]

/-- `ChunkIndices`: ordered sequence of unsigned 64-bit integers, one per
array dimension (`pub struct ChunkIndices(pub Vec<u64>)`, pinned by its
uses in the source; declared in the parent module). -/
structure ChunkIndices where
  val : List Nat
deriving DecidableEq, Repr

/-- `impl From<&ChunkIndices> for Vec<u8>`: concatenation of the 8
big-endian bytes of each dimension, in dimension order. -/
def ChunkIndices.toBytes (c : ChunkIndices) : List Nat :=
  (c.val.map u64ToBeBytes).flatten

/-- `ChunkIndices::unchecked_try_from_slice`: reinterpret every
consecutive 8-byte group big-endian.  The outer `Option` is the panic of
the `expect` on a short trailing group; the `Except` is the declared
(never used) error channel of the Rust signature. -/
def ChunkIndices.unchecked_try_from_slice (slice : List Nat) :
    Option (Except String ChunkIndices) :=
  ((chunksOf8 slice).mapM u64FromBeBytes).map (fun ns => Except.ok ⟨ns⟩)

/-- `ChunkIndices::try_from_slice`: length-checked decode.  Note the error
message interpolates `slice.len()` and `rank` (not `rank * 8`). -/
def ChunkIndices.try_from_slice (rank : Nat) (slice : List Nat) :
    Option (Except String ChunkIndices) :=
  if slice.length ≠ rank * 8 then
    some (Except.error
      ("Invalid slice length " ++ toString slice.length ++ ", expecting " ++
        toString rank))
  else
    ChunkIndices.unchecked_try_from_slice slice


-- Chunk payload model --------------------------------------------------------

/-- Modelled from the spec: the engine's content-addressed object
identifier, "fixed-size byte string (object-id width)"; declared in the
parent module with `ObjectId::SIZE` bytes of payload. -/
structure ObjectId where
  bytes : List Nat
deriving DecidableEq

/-- Modelled from the spec: the fixed byte width of an `ObjectId`
(`ObjectId::SIZE`); its concrete value is irrelevant to the claims. -/
def ObjectId.SIZE : Nat := 16

/-- The all-zero identifier: the bytes an arrow `FixedSizeBinaryArray`
built by `try_from_sparse_iter_with_size` stores under a null slot. -/
def ObjectId.zero : ObjectId := ⟨List.replicate ObjectId.SIZE 0⟩

/-- `VirtualChunkRef`: byte range inside an externally-owned object. -/
structure VirtualChunkRef where
  location : String
  offset : Nat
  length : Nat
deriving DecidableEq

/-- `ChunkRef`: byte range inside a content-addressed object of the
engine's own store. -/
structure ChunkRef where
  id : ObjectId
  offset : Nat
  length : Nat
deriving DecidableEq

/-- `ChunkPayload`: where a chunk's bytes live. -/
inductive ChunkPayload where
  | Inline (data : List Nat)
  | Virtual (vref : VirtualChunkRef)
  | Ref (cref : ChunkRef)
deriving DecidableEq

/-- `ChunkInfo`: one chunk record (owning node, coordinate, payload). -/
structure ChunkInfo where
  node : NodeId
  coord : ChunkIndices
  payload : ChunkPayload
deriving DecidableEq

/-- Modelled from the spec: the error type behind `IcechunkResult`
(declared in the parent module); `iter` only ever wraps successes, so
only its existence matters here. -/
inductive IcechunkError where
  | mk (msg : String)
deriving DecidableEq

/-- `IcechunkResult<T>` from the parent module. -/
abbrev IcechunkResult (α : Type) := Except IcechunkError α

instance {ε α : Type} [DecidableEq ε] [DecidableEq α] : DecidableEq (Except ε α) :=
  fun a b =>
    match a, b with
    | Except.ok x, Except.ok y =>
        if h : x = y then isTrue (congrArg Except.ok h)
        else isFalse (fun hc => h (by cases hc; rfl))
    | Except.ok _, Except.error _ => isFalse (fun hc => by cases hc)
    | Except.error _, Except.ok _ => isFalse (fun hc => by cases hc)
    | Except.error x, Except.error y =>
        if h : x = y then isTrue (congrArg Except.error h)
        else isFalse (fun hc => h (by cases hc; rfl))

-- Columnar batch -------------------------------------------------------------

/-- The arrow `RecordBatch` of a manifest, restricted to the fixed schema
built by `mk_manifests_table`: one list per column, nullable columns as
`Option`.  Column names and nullability follow the schema declared in the
source (`array_id`, `coords`, `offset`, `length`, `inline_data`,
`chunk_id`, `virtual_path`, `extra`). -/
structure RecordBatch where
  array_id : List NodeId
  coords : List (List Nat)
  offset : List (Option Nat)
  length : List Nat
  inline_data : List (Option (List Nat))
  chunk_id : List (Option ObjectId)
  virtual_path : List (Option String)
  extra : List (Option String)
deriving DecidableEq

/-- `RecordBatch::num_rows`.  Arrow guarantees every column has this
length (checked by `RecordBatch::try_new`); see `RecordBatch.WF`. -/
def RecordBatch.num_rows (b : RecordBatch) : Nat := b.array_id.length

/-- The equal-column-length invariant `RecordBatch::try_new` enforces; it
holds for every batch the builder produces. -/
def RecordBatch.WF (b : RecordBatch) : Prop :=
  b.coords.length = b.num_rows ∧ b.offset.length = b.num_rows ∧
  b.length.length = b.num_rows ∧ b.inline_data.length = b.num_rows ∧
  b.chunk_id.length = b.num_rows ∧ b.virtual_path.length = b.num_rows ∧
  b.extra.length = b.num_rows

instance (b : RecordBatch) : Decidable b.WF := by
  unfold RecordBatch.WF
  infer_instance

/-- `TableRegion(from, to)`: half-open row interval, declared in the
parent module as a pair of `u32` row offsets. -/
structure TableRegion where
  fromRow : Nat
  toRow : Nat
deriving DecidableEq

/-- `ManifestsTable`: an immutable columnar batch of chunk records. -/
structure ManifestsTable where
  batch : RecordBatch
deriving DecidableEq

/-- `Iterator::position(pred)`: index of the first element satisfying the
predicate. -/
def listPosition {α : Type} (p : α → Bool) : List α → Option Nat
  | [] => none
  | x :: xs => if p x then some 0 else (listPosition p xs).map (· + 1)

/-- `ManifestsTable::get_row`: bounds-checked decode of one row.  The
outer `Option` is a panic (only reachable through the coordinate decode's
`expect`); `some none` is the `None` return.  Reads of `value(idx)` on a
null slot return the arrow default for the column (`0`, empty bytes, the
zero id), as the underlying buffers do. -/
def ManifestsTable.get_row (t : ManifestsTable) (row : Nat) :
    Option (Option ChunkInfo) :=
  if row ≥ t.batch.num_rows then some none
  else
    let id := t.batch.array_id.getD row 0
    match ChunkIndices.unchecked_try_from_slice (t.batch.coords.getD row []) with
    | none => none
    | some (Except.error _) => some none
    | some (Except.ok coords) =>
      match t.batch.inline_data.getD row none with
      | some data =>
          some (some { node := id, coord := coords,
                       payload := ChunkPayload.Inline data })
      | none =>
          let offset := (t.batch.offset.getD row none).getD 0
          let length := t.batch.length.getD row 0
          match t.batch.virtual_path.getD row none with
          | some location =>
              some (some { node := id, coord := coords,
                           payload := ChunkPayload.Virtual
                             { location := location, offset := offset,
                               length := length } })
          | none =>
              let chunk_id := (t.batch.chunk_id.getD row none).getD ObjectId.zero
              some (some { node := id, coord := coords,
                           payload := ChunkPayload.Ref
                             { id := chunk_id, offset := offset,
                               length := length } })

/-- `ManifestsTable::get_chunk_info_index`: bounds-checked linear scan of
the coordinate column over `region`, returning the absolute offset of the
first byte-equal match.  The `pos < 2 ^ 32` guard is the `usize → u32`
`try_into().ok()?`. -/
def ManifestsTable.get_chunk_info_index (t : ManifestsTable)
    (coords : ChunkIndices) (region : TableRegion) : Option Nat :=
  if region.toRow > t.batch.num_rows ∨ region.fromRow > region.toRow then none
  else
    let sliced := (t.batch.coords.drop region.fromRow).take
      (region.toRow - region.fromRow)
    let enc := coords.toBytes
    match listPosition (fun c => c == enc) sliced with
    | none => none
    | some pos => if pos < 2 ^ 32 then some (pos + region.fromRow) else none

/-- `ManifestsTable::get_chunk_info`: `get_chunk_info_index` then
`get_row`; propagates `get_row`'s panic layer. -/
def ManifestsTable.get_chunk_info (t : ManifestsTable) (coords : ChunkIndices)
    (region : TableRegion) : Option (Option ChunkInfo) :=
  match t.get_chunk_info_index coords region with
  | none => some none
  | some idx => t.get_row idx

/-- `ManifestsTable::iter`: `from` defaults to `0`, `to` defaults to
`num_rows() as u32` (a truncating cast, hence the `% 2 ^ 32`); maps
`Ok(get_row(idx).unwrap())` over `from..to`.  An item is `none` when that
unwrap (or `get_row` itself) panics. -/
def ManifestsTable.iter (t : ManifestsTable) (fromO toO : Option Nat) :
    List (Option (IcechunkResult ChunkInfo)) :=
  let f := fromO.getD 0
  let tt := toO.getD (t.batch.num_rows % 2 ^ 32)
  (List.range' f (tt - f)).map (fun idx =>
    match t.get_row idx with
    | some (some c) => some (Except.ok c)
    | _ => none)

-- Builder --------------------------------------------------------------------

/-- The `length` column value pushed for a payload
(`data.len()` / `length`). -/
def payloadLength : ChunkPayload → Nat
  | ChunkPayload.Inline data => data.length
  | ChunkPayload.Virtual vref => vref.length
  | ChunkPayload.Ref cref => cref.length

/-- The `inline_data` column value pushed for a payload. -/
def payloadInlineData : ChunkPayload → Option (List Nat)
  | ChunkPayload.Inline data => some data
  | _ => none

/-- The `chunk_id` column value pushed for a payload. -/
def payloadChunkId : ChunkPayload → Option ObjectId
  | ChunkPayload.Ref cref => some cref.id
  | _ => none

/-- The `virtual_path` column value pushed for a payload. -/
def payloadVirtualPath : ChunkPayload → Option String
  | ChunkPayload.Virtual vref => some vref.location
  | _ => none

/-- The `offset` column value pushed for a payload (absent for Inline). -/
def payloadOffset : ChunkPayload → Option Nat
  | ChunkPayload.Inline _ => none
  | ChunkPayload.Virtual vref => some vref.offset
  | ChunkPayload.Ref cref => some cref.offset

/-- The seal step of `mk_manifests_table`: the per-record column pushes of
the consume loop followed by the one-shot `RecordBatch::try_new` (whose
`expect` cannot fire: all columns have equal length, matching types, and
no null in a non-nullable column). -/
def sealTable (cs : List ChunkInfo) : ManifestsTable :=
  { batch :=
    { array_id := cs.map (fun c => c.node)
    , coords := cs.map (fun c => c.coord.toBytes)
    , offset := cs.map (fun c => payloadOffset c.payload)
    , length := cs.map (fun c => payloadLength c.payload)
    , inline_data := cs.map (fun c => payloadInlineData c.payload)
    , chunk_id := cs.map (fun c => payloadChunkId c.payload)
    , virtual_path := cs.map (fun c => payloadVirtualPath c.payload)
    , extra := cs.map (fun _ => (none : Option String)) } }

/-- The consume loop of `mk_manifests_table`: take stream items in order;
on the first `Err` return it immediately (later items are not consumed),
otherwise collect every record in order. -/
def collectStream {E : Type} : List (Except E ChunkInfo) → Except E (List ChunkInfo)
  | [] => Except.ok []
  | Except.error e :: _ => Except.error e
  | Except.ok c :: rest => (collectStream rest).map (fun cs => c :: cs)

/-- `mk_manifests_table`: consume the (modelled) stream, then seal the
accumulated columns into a table. -/
def mk_manifests_table {E : Type} (chunks : List (Except E ChunkInfo)) :
    Except E ManifestsTable :=
  (collectStream chunks).map sealTable

/-- Exactly one of three booleans is true (counts the non-null payload
columns of a row). -/
def oneOfThree (a b c : Bool) : Bool :=
  a.toNat + b.toNat + c.toNat == 1

-- Concrete fixtures ----------------------------------------------------------

/-- A concrete object id (mirrors `ObjectId::random()` of the test
fixture; any fixed value works). -/
def oidA : ObjectId := ⟨List.replicate ObjectId.SIZE 7⟩

/-- A `Ref`-payload record (node 1 at `(0,0,0)`, as in the repository's
`test_get_chunk_info` fixture). -/
def recRef : ChunkInfo := ⟨1, ⟨[0, 0, 0]⟩, ChunkPayload.Ref ⟨oidA, 0, 128⟩⟩

/-- An `Inline`-payload record (node 2 at `(0,0,0)`, payload `"hello"`). -/
def recInline : ChunkInfo :=
  ⟨2, ⟨[0, 0, 0]⟩, ChunkPayload.Inline [104, 101, 108, 108, 111]⟩

/-- A `Virtual`-payload record (node 2 at `(0,0,1)`,
`s3://foo.bar` offset 99 length 100). -/
def recVirtual : ChunkInfo :=
  ⟨2, ⟨[0, 0, 1]⟩, ChunkPayload.Virtual ⟨"s3://foo.bar", 99, 100⟩⟩

/-- One record of each payload variant, fed to the builder in witnesses. -/
def fixtureRecords : List ChunkInfo := [recRef, recInline, recVirtual]

/-- The table the builder seals from `fixtureRecords`. -/
def fixtureTable : ManifestsTable := sealTable fixtureRecords

/-- A schema-conforming batch whose single row has all three payload
columns null, violating the mutual-exclusion invariant: the decode input
exhibiting the `MalformedRow` gap. -/
def allNullRowBatch : RecordBatch :=
  { array_id := [1]
  , coords := [ChunkIndices.toBytes ⟨[0]⟩]
  , offset := [some 7]
  , length := [5]
  , inline_data := [none]
  , chunk_id := [none]
  , virtual_path := [none]
  , extra := [none] }

/-- A batch with `2 ^ 32` rows: large enough that `num_rows() as u32`
truncates. -/
def hugeBatch : RecordBatch :=
  { array_id := List.replicate (2 ^ 32) 0
  , coords := List.replicate (2 ^ 32) []
  , offset := List.replicate (2 ^ 32) none
  , length := List.replicate (2 ^ 32) 0
  , inline_data := List.replicate (2 ^ 32) (some [])
  , chunk_id := List.replicate (2 ^ 32) none
  , virtual_path := List.replicate (2 ^ 32) none
  , extra := List.replicate (2 ^ 32) none }

-- Basic codec lemmas --------------------------------------------------------

theorem u64ToBeBytes_length (n : Nat) : (u64ToBeBytes n).length = 8 := rfl

theorem u64FromBeBytes_u64ToBeBytes (n : Nat) (h : n < 2 ^ 64) :
    u64FromBeBytes (u64ToBeBytes n) = some n := by
  simp only [u64ToBeBytes, u64FromBeBytes, Option.some.injEq]
  omega

theorem chunksOf8_nil : chunksOf8 [] = [] := rfl

theorem chunksOf8_append (b rest : List Nat) (hb : b.length = 8) :
    chunksOf8 (b ++ rest) = b :: chunksOf8 rest := by
  match b, hb with
  | [b0, b1, b2, b3, b4, b5, b6, b7], _ => rfl

/-- Core round-trip: decoding the concatenated big-endian encoding of a
list of 64-bit values recovers the list. -/
theorem decode_encode_list (v : List Nat) (hv : ∀ x ∈ v, x < 2 ^ 64) :
    (chunksOf8 ((v.map u64ToBeBytes).flatten)).mapM u64FromBeBytes = some v := by
  induction v with
  | nil => simp [chunksOf8_nil]; rfl
  | cons x xs ih =>
      simp only [List.map_cons, List.flatten_cons]
      rw [chunksOf8_append _ _ (u64ToBeBytes_length x)]
      have hx : x < 2 ^ 64 := hv x (List.mem_cons_self x xs)
      have hxs : ∀ y ∈ xs, y < 2 ^ 64 := fun y hy => hv y (List.mem_cons_of_mem x hy)
      rw [List.mapM_cons, u64FromBeBytes_u64ToBeBytes x hx, ih hxs]
      rfl

theorem toBytes_length (c : ChunkIndices) :
    c.toBytes.length = 8 * c.val.length := by
  unfold ChunkIndices.toBytes
  induction c.val with
  | nil => simp
  | cons x xs ih => simp [ih, u64ToBeBytes_length]; ring

theorem unchecked_decode_toBytes (c : ChunkIndices)
    (hv : ∀ x ∈ c.val, x < 2 ^ 64) :
    ChunkIndices.unchecked_try_from_slice c.toBytes = some (Except.ok c) := by
  unfold ChunkIndices.unchecked_try_from_slice ChunkIndices.toBytes
  rw [decode_encode_list c.val hv]
  rfl

-- Helper lemmas --------------------------------------------------------------

theorem getD_map_eq {α β : Type} (f : α → β) (cs : List α) (i : Nat)
    (h : i < cs.length) (d : β) : (cs.map f).getD i d = f cs[i] := by
  simp [List.getD_eq_getElem?_getD, List.getElem?_map, List.getElem?_eq_getElem h]

theorem listPosition_eq_some_iff {α : Type} (p : α → Bool) (l : List α) (i : Nat) :
    listPosition p l = some i ↔
      (∃ x, l[i]? = some x ∧ p x = true) ∧
      ∀ j, j < i → ∃ y, l[j]? = some y ∧ p y = false := by
  induction l generalizing i with
  | nil => simp [listPosition]
  | cons a l ih =>
      simp only [listPosition]
      by_cases hpa : p a
      · rw [if_pos hpa]
        cases i with
        | zero => simp [hpa]
        | succ k =>
            simp only [Option.some.injEq]
            constructor
            · intro h
              omega
            · rintro ⟨-, hall⟩
              obtain ⟨y, hy, hpy⟩ := hall 0 (Nat.succ_pos k)
              simp only [List.getElem?_cons_zero, Option.some.injEq] at hy
              rw [← hy] at hpy
              rw [hpa] at hpy
              cases hpy
      · rw [if_neg hpa]
        cases i with
        | zero =>
            simp only [Option.map_eq_some']
            constructor
            · rintro ⟨m, -, hm⟩
              omega
            · rintro ⟨⟨x, hx, hpx⟩, -⟩
              simp only [List.getElem?_cons_zero, Option.some.injEq] at hx
              rw [← hx] at hpx
              exact absurd hpx hpa
        | succ k =>
            simp only [Option.map_eq_some']
            constructor
            · rintro ⟨m, hm, hmk⟩
              have hmk' : m = k := by omega
              obtain ⟨⟨x, hx, hpx⟩, hall⟩ := (ih k).mp (hmk' ▸ hm)
              refine ⟨⟨x, ?_, hpx⟩, ?_⟩
              · simpa using hx
              · intro j hj
                cases j with
                | zero =>
                    exact ⟨a, by simp, by simp [hpa]⟩
                | succ j' =>
                    obtain ⟨y, hy, hpy⟩ := hall j' (by omega)
                    exact ⟨y, by simpa using hy, hpy⟩
            · rintro ⟨⟨x, hx, hpx⟩, hall⟩
              refine ⟨k, (ih k).mpr ⟨⟨x, by simpa using hx, hpx⟩, ?_⟩, rfl⟩
              intro j hj
              obtain ⟨y, hy, hpy⟩ := hall (j + 1) (by omega)
              exact ⟨y, by simpa using hy, hpy⟩

theorem listPosition_eq_none_iff {α : Type} (p : α → Bool) (l : List α) :
    listPosition p l = none ↔ ∀ x ∈ l, p x = false := by
  induction l with
  | nil => simp [listPosition]
  | cons a l ih =>
      simp only [listPosition]
      by_cases hpa : p a
      · rw [if_pos hpa]
        simp [hpa]
      · rw [if_neg hpa]
        simp only [Option.map_eq_none', ih, List.mem_cons]
        constructor
        · intro h x hx
          cases hx with
          | inl h0 => rw [h0]; exact Bool.eq_false_iff.mpr hpa
          | inr h0 => exact h x h0
        · intro h x hx
          exact h x (Or.inr hx)

theorem collectStream_map_ok {E : Type} (cs : List ChunkInfo) :
    collectStream (E := E) (cs.map Except.ok) = Except.ok cs := by
  induction cs with
  | nil => rfl
  | cons c cs ih => simp [collectStream, ih, Except.map]

theorem collectStream_ok_inv {E : Type} (chunks : List (Except E ChunkInfo))
    (cs : List ChunkInfo) (h : collectStream chunks = Except.ok cs) :
    chunks = cs.map Except.ok := by
  induction chunks generalizing cs with
  | nil =>
      simp only [collectStream] at h
      cases h
      rfl
  | cons x rest ih =>
      cases x with
      | error e => simp [collectStream] at h
      | ok c =>
          simp only [collectStream] at h
          cases hr : collectStream (E := E) rest with
          | error e => rw [hr] at h; simp [Except.map] at h
          | ok cs' =>
              rw [hr] at h
              simp only [Except.map, Except.ok.injEq] at h
              rw [← h, List.map_cons, ← ih cs' hr]

theorem collectStream_first_error {E : Type} (pre post : List (Except E ChunkInfo))
    (e : E) (hpre : ∀ x ∈ pre, ∃ c, x = Except.ok c) :
    collectStream (pre ++ Except.error e :: post) = Except.error e := by
  induction pre with
  | nil => rfl
  | cons x rest ih =>
      obtain ⟨c, hc⟩ := hpre x (List.mem_cons_self x rest)
      subst hc
      simp only [List.cons_append, collectStream, List.append_eq]
      rw [ih (fun y hy => hpre y (List.mem_cons_of_mem _ hy))]
      rfl

/-- Decode of row `i` of a sealed table reproduces the `i`-th record, as
long as the record's coordinates fit in 64 bits. -/
theorem get_row_sealTable (cs : List ChunkInfo) (i : Nat) (h : i < cs.length)
    (hv : ∀ x ∈ cs[i].coord.val, x < 2 ^ 64) :
    (sealTable cs).get_row i = some (some cs[i]) := by
  unfold ManifestsTable.get_row sealTable
  simp only [RecordBatch.num_rows, List.length_map]
  rw [if_neg (by omega)]
  rw [getD_map_eq _ _ _ h, getD_map_eq _ _ _ h, getD_map_eq _ _ _ h,
      getD_map_eq _ _ _ h, getD_map_eq _ _ _ h, getD_map_eq _ _ _ h,
      getD_map_eq _ _ _ h]
  rw [unchecked_decode_toBytes _ hv]
  generalize hc : cs[i] = c at *
  obtain ⟨nd, co, pl⟩ := c
  cases pl with
  | Inline data => rfl
  | Virtual vref => rfl
  | Ref cref => rfl

theorem u64FromBeBytes_of_length_eight (l : List Nat) (h : l.length = 8) :
    ∃ v, u64FromBeBytes l = some v := by
  match l, h with
  | [b0, b1, b2, b3, b4, b5, b6, b7], _ => exact ⟨_, rfl⟩

/-- Decoding a byte list of length `8 * k` yields `k` values, the `i`-th
being the big-endian interpretation of the `i`-th 8-byte group. -/
theorem chunks_mapM_total (k : Nat) :
    ∀ slice : List Nat, slice.length = 8 * k →
      ∃ ns : List Nat, (chunksOf8 slice).mapM u64FromBeBytes = some ns ∧
        ns.length = k ∧
        ∀ i, i < k → ns[i]? = u64FromBeBytes ((slice.drop (8 * i)).take 8) := by
  induction k with
  | zero =>
      intro slice hlen
      have : slice = [] := List.length_eq_zero.mp (by omega)
      subst this
      exact ⟨[], rfl, rfl, fun i hi => absurd hi (Nat.not_lt_zero i)⟩
  | succ k ih =>
      intro slice hlen
      have hsplit : slice.take 8 ++ slice.drop 8 = slice := List.take_append_drop 8 slice
      have htl : (slice.take 8).length = 8 := by
        rw [List.length_take]
        omega
      have hdl : (slice.drop 8).length = 8 * k := by
        rw [List.length_drop]
        omega
      obtain ⟨ns, hns, hlen', hidx⟩ := ih (slice.drop 8) hdl
      obtain ⟨v, hv⟩ := u64FromBeBytes_of_length_eight (slice.take 8) htl
      refine ⟨v :: ns, ?_, by simp [hlen'], ?_⟩
      · rw [← hsplit, chunksOf8_append _ _ htl, List.mapM_cons, hv, hns]
        rfl
      · intro i hi
        cases i with
        | zero =>
            simp only [List.getElem?_cons_zero, Nat.mul_zero, List.drop_zero]
            rw [hv]
        | succ i' =>
            simp only [List.getElem?_cons_succ]
            rw [hidx i' (by omega), List.drop_drop]
            have harg : 8 + 8 * i' = 8 * (i' + 1) := by ring
            rw [harg]

/-- On a slice whose length is a multiple of 8 the unchecked decoder
succeeds, with one component per 8-byte group. -/
theorem unchecked_decode_total_of_dvd (slice : List Nat)
    (hdvd : 8 ∣ slice.length) :
    ∃ c : ChunkIndices,
      ChunkIndices.unchecked_try_from_slice slice = some (Except.ok c) ∧
      c.val.length = slice.length / 8 ∧
      ∀ i, i < slice.length / 8 →
        c.val[i]? = u64FromBeBytes ((slice.drop (8 * i)).take 8) := by
  obtain ⟨k, hk⟩ := hdvd
  obtain ⟨ns, hns, hlen, hidx⟩ := chunks_mapM_total k slice (by omega)
  have hdiv : slice.length / 8 = k := by omega
  refine ⟨⟨ns⟩, ?_, by simpa [hdiv] using hlen, ?_⟩
  · unfold ChunkIndices.unchecked_try_from_slice
    rw [hns]
    rfl
  · intro i hi
    exact hidx i (by omega)

-- Claim theorems -------------------------------------------------------------

/-- Claim C5: for every finite sequence `v` of unsigned 64-bit integers,
decoding the encoding of `ChunkIndices v` via `unchecked_try_from_slice`
succeeds and returns `ChunkIndices v`; the encoding has exactly 8 bytes
per dimension; and the encoding is injective on `ChunkIndices` of equal
rank. -/
theorem c5_coordinate_codec_roundtrip (v : List Nat)
    (hv : ∀ x ∈ v, x < 2 ^ 64) :
    ChunkIndices.unchecked_try_from_slice (ChunkIndices.toBytes ⟨v⟩) =
      some (Except.ok ⟨v⟩) ∧
    (ChunkIndices.toBytes ⟨v⟩).length = 8 * v.length ∧
    ∀ w : List Nat, w.length = v.length → (∀ x ∈ w, x < 2 ^ 64) →
      ChunkIndices.toBytes ⟨w⟩ = ChunkIndices.toBytes ⟨v⟩ → w = v := by
  refine ⟨unchecked_decode_toBytes ⟨v⟩ hv, toBytes_length ⟨v⟩, ?_⟩
  intro w hlen hw heq
  have h1 := unchecked_decode_toBytes ⟨w⟩ hw
  rw [heq, unchecked_decode_toBytes ⟨v⟩ hv] at h1
  simp only [Option.some.injEq, Except.ok.injEq, ChunkIndices.mk.injEq] at h1
  exact h1.symm

theorem c5_coordinate_codec_roundtrip_witness :
    (∀ x ∈ [0, 1, 2 ^ 64 - 1], x < 2 ^ 64) ∧
    (ChunkIndices.unchecked_try_from_slice
        (ChunkIndices.toBytes ⟨[0, 1, 2 ^ 64 - 1]⟩) =
      some (Except.ok ⟨[0, 1, 2 ^ 64 - 1]⟩) ∧
    (ChunkIndices.toBytes ⟨[0, 1, 2 ^ 64 - 1]⟩).length = 8 * 3 ∧
    ∀ w : List Nat, w.length = [0, 1, 2 ^ 64 - 1].length →
      (∀ x ∈ w, x < 2 ^ 64) →
      ChunkIndices.toBytes ⟨w⟩ = ChunkIndices.toBytes ⟨[0, 1, 2 ^ 64 - 1]⟩ →
      w = [0, 1, 2 ^ 64 - 1]) :=
  ⟨by decide, c5_coordinate_codec_roundtrip [0, 1, 2 ^ 64 - 1] (by decide)⟩

/-- Claim C10: `unchecked_try_from_slice` never returns an `Err`; and for
every byte slice whose length is a multiple of 8 it returns `Ok` of a
`ChunkIndices` with `length / 8` components, each the big-endian
interpretation of the corresponding 8-byte group (so the internal
`expect` cannot fire under this precondition). -/
theorem c10_unchecked_decode_never_err (slice : List Nat) :
    (∀ r, ChunkIndices.unchecked_try_from_slice slice = some r →
      ∃ c, r = Except.ok c) ∧
    (8 ∣ slice.length →
      ∃ c : ChunkIndices,
        ChunkIndices.unchecked_try_from_slice slice = some (Except.ok c) ∧
        c.val.length = slice.length / 8 ∧
        ∀ i, i < slice.length / 8 →
          c.val[i]? = u64FromBeBytes ((slice.drop (8 * i)).take 8)) := by
  constructor
  · intro r hr
    unfold ChunkIndices.unchecked_try_from_slice at hr
    cases hm : (chunksOf8 slice).mapM u64FromBeBytes with
    | none => rw [hm] at hr; cases hr
    | some ns =>
        rw [hm] at hr
        simp only [Option.map_some', Option.some.injEq] at hr
        exact ⟨⟨ns⟩, hr.symm⟩
  · exact unchecked_decode_total_of_dvd slice

theorem c10_unchecked_decode_never_err_witness :
    8 ∣ ([0, 0, 0, 0, 0, 0, 1, 5, 255, 0, 0, 0, 0, 0, 0, 0] : List Nat).length ∧
    ∃ c : ChunkIndices,
      ChunkIndices.unchecked_try_from_slice
        [0, 0, 0, 0, 0, 0, 1, 5, 255, 0, 0, 0, 0, 0, 0, 0] =
        some (Except.ok c) ∧
      c.val.length =
        ([0, 0, 0, 0, 0, 0, 1, 5, 255, 0, 0, 0, 0, 0, 0, 0] : List Nat).length / 8 ∧
      ∀ i, i < ([0, 0, 0, 0, 0, 0, 1, 5, 255, 0, 0, 0, 0, 0,
          0, 0] : List Nat).length / 8 →
        c.val[i]? = u64FromBeBytes
          ((([0, 0, 0, 0, 0, 0, 1, 5, 255, 0, 0, 0, 0, 0,
              0, 0] : List Nat).drop (8 * i)).take 8) :=
  ⟨by decide,
    (c10_unchecked_decode_never_err
      [0, 0, 0, 0, 0, 0, 1, 5, 255, 0, 0, 0, 0, 0, 0, 0]).2 (by decide)⟩

/-- Claim C6 counterexample: the claim says the `InvalidEncoding` error
carries the actual versus expected length; at rank 2 and the empty slice
the error string ends in the rank `2`, while the expected length is
`2 * 8 = 16` — the expected length is not what the message carries. -/
theorem c6_counterexample :
    ChunkIndices.try_from_slice 2 [] =
      some (Except.error "Invalid slice length 0, expecting 2") ∧
    2 * 8 ≠ 2 := by
  constructor
  · rfl
  · decide

/-- Claim C6 (amended): `try_from_slice rank bytes` fails whenever
`bytes.len() != rank * 8`, with an error message carrying the actual
length and the expected rank (not the expected byte length), and
otherwise delegates to the unchecked decoder and succeeds. -/
theorem c6_checked_decode_length_guard (rank : Nat) (slice : List Nat) :
    if slice.length = rank * 8 then
      ChunkIndices.try_from_slice rank slice =
        ChunkIndices.unchecked_try_from_slice slice ∧
      ∃ c, ChunkIndices.try_from_slice rank slice = some (Except.ok c)
    else
      ChunkIndices.try_from_slice rank slice =
        some (Except.error
          ("Invalid slice length " ++ toString slice.length ++
            ", expecting " ++ toString rank)) := by
  by_cases h : slice.length = rank * 8
  · rw [if_pos h]
    have hdel : ChunkIndices.try_from_slice rank slice =
        ChunkIndices.unchecked_try_from_slice slice := by
      unfold ChunkIndices.try_from_slice
      rw [if_neg (by omega)]
    refine ⟨hdel, ?_⟩
    obtain ⟨c, hc, -, -⟩ :=
      unchecked_decode_total_of_dvd slice ⟨rank, by omega⟩
    exact ⟨c, by rw [hdel, hc]⟩
  · rw [if_neg h]
    unfold ChunkIndices.try_from_slice
    rw [if_pos h]

theorem c6_checked_decode_length_guard_witness :
    ChunkIndices.try_from_slice 1 [0, 0, 0, 0, 0, 0, 1, 5] =
      ChunkIndices.unchecked_try_from_slice [0, 0, 0, 0, 0, 0, 1, 5] ∧
    ∃ c, ChunkIndices.try_from_slice 1 [0, 0, 0, 0, 0, 0, 1, 5] =
      some (Except.ok c) := by
  have h := c6_checked_decode_length_guard 1 [0, 0, 0, 0, 0, 0, 1, 5]
  rw [if_pos (by decide)] at h
  exact h

theorem sealTable_num_rows (cs : List ChunkInfo) :
    (sealTable cs).batch.num_rows = cs.length := by
  simp [sealTable, RecordBatch.num_rows]

theorem sealTable_WF (cs : List ChunkInfo) : (sealTable cs).batch.WF := by
  simp [sealTable, RecordBatch.WF, RecordBatch.num_rows]

theorem mk_manifests_table_map_ok {E : Type} (cs : List ChunkInfo) :
    mk_manifests_table (E := E) (cs.map Except.ok) = Except.ok (sealTable cs) := by
  unfold mk_manifests_table
  rw [collectStream_map_ok]
  rfl

theorem mk_manifests_table_ok_inv {E : Type} (chunks : List (Except E ChunkInfo))
    (t : ManifestsTable) (h : mk_manifests_table chunks = Except.ok t) :
    ∃ cs : List ChunkInfo, chunks = cs.map Except.ok ∧ t = sealTable cs := by
  unfold mk_manifests_table at h
  cases hc : collectStream chunks with
  | error e => rw [hc] at h; simp [Except.map] at h
  | ok cs =>
      rw [hc] at h
      simp only [Except.map, Except.ok.injEq] at h
      exact ⟨cs, collectStream_ok_inv _ _ hc, h.symm⟩

/-- Claim C1: building from a failure-free sequence of valid records
yields a table with exactly one row per record, in input order, and
`get_row i` decodes back exactly the `i`-th input record (node id,
coordinates, and payload variant with all fields). -/
theorem c1_build_decode_fidelity {E : Type} (cs : List ChunkInfo)
    (hv : ∀ c ∈ cs, ∀ x ∈ c.coord.val, x < 2 ^ 64)
    (i : Nat) (hi : i < cs.length) :
    ∃ t : ManifestsTable,
      mk_manifests_table (E := E) (cs.map Except.ok) = Except.ok t ∧
      t.batch.num_rows = cs.length ∧
      t.get_row i = some (some cs[i]) :=
  ⟨sealTable cs, mk_manifests_table_map_ok cs, sealTable_num_rows cs,
    get_row_sealTable cs i hi (hv cs[i] (List.getElem_mem hi))⟩

theorem c1_build_decode_fidelity_witness :
    (∀ c ∈ fixtureRecords, ∀ x ∈ c.coord.val, x < 2 ^ 64) ∧
    (1 < fixtureRecords.length) ∧
    ∃ t : ManifestsTable,
      mk_manifests_table (E := String) (fixtureRecords.map Except.ok) =
        Except.ok t ∧
      t.batch.num_rows = fixtureRecords.length ∧
      t.get_row 1 = some (some recInline) :=
  ⟨by decide, by decide,
    c1_build_decode_fidelity (E := String) fixtureRecords (by decide) 1 (by decide)⟩

/-- Claim C3: the builder returns the first failure of the input sequence
verbatim and produces no table; the elements before the failure (as long
as they are successes) and after it (arbitrary) do not affect this. -/
theorem c3_builder_short_circuit {E : Type} (pre post : List (Except E ChunkInfo))
    (e : E) (hpre : ∀ x ∈ pre, ∃ c, x = Except.ok c) :
    mk_manifests_table (pre ++ Except.error e :: post) = Except.error e := by
  unfold mk_manifests_table
  rw [collectStream_first_error pre post e hpre]
  rfl

theorem c3_builder_short_circuit_witness :
    (∀ x ∈ [Except.ok (ε := String) recRef, Except.ok recInline],
      ∃ c, x = Except.ok c) ∧
    mk_manifests_table
      ([Except.ok (ε := String) recRef, Except.ok recInline] ++
        Except.error "boom" :: [Except.ok recVirtual, Except.error "later"]) =
      Except.error "boom" := by
  have hpre : ∀ x ∈ [Except.ok (ε := String) recRef, Except.ok recInline],
      ∃ c, x = Except.ok c := by
    intro x hx
    rcases List.mem_cons.mp hx with rfl | hx
    · exact ⟨recRef, rfl⟩
    rcases List.mem_cons.mp hx with rfl | hx
    · exact ⟨recInline, rfl⟩
    cases hx
  exact ⟨hpre, c3_builder_short_circuit _ _ _ hpre⟩

/-- Claim C4: in every table the builder produces, each row has exactly
one non-null column among `inline_data`, `virtual_path`, `chunk_id`
(determining the payload variant), the `offset` column is non-null
exactly when the `inline_data` column is null (i.e. when the payload is
not Inline), and every column — in particular the non-nullable `array_id`
and `coords` columns — has an entry for the row (`WF`). -/
theorem c4_row_mutual_exclusion {E : Type} (chunks : List (Except E ChunkInfo))
    (t : ManifestsTable) (hmk : mk_manifests_table chunks = Except.ok t)
    (i : Nat) (hi : i < t.batch.num_rows) :
    oneOfThree (t.batch.inline_data.getD i none).isSome
      (t.batch.virtual_path.getD i none).isSome
      (t.batch.chunk_id.getD i none).isSome = true ∧
    (t.batch.offset.getD i none).isSome =
      !(t.batch.inline_data.getD i none).isSome ∧
    t.batch.WF := by
  obtain ⟨cs, -, rfl⟩ := mk_manifests_table_ok_inv chunks t hmk
  rw [sealTable_num_rows] at hi
  refine ⟨?_, ?_, sealTable_WF cs⟩ <;>
    · show _ = _
      unfold sealTable
      rw [getD_map_eq _ _ _ hi, getD_map_eq _ _ _ hi]
      first
        | rw [getD_map_eq _ _ _ hi]
        | skip
      cases cs[i].payload <;> rfl

theorem c4_row_mutual_exclusion_witness :
    mk_manifests_table (E := String) (fixtureRecords.map Except.ok) =
      Except.ok fixtureTable ∧
    (0 < fixtureTable.batch.num_rows) ∧
    (oneOfThree (fixtureTable.batch.inline_data.getD 0 none).isSome
      (fixtureTable.batch.virtual_path.getD 0 none).isSome
      (fixtureTable.batch.chunk_id.getD 0 none).isSome = true ∧
    (fixtureTable.batch.offset.getD 0 none).isSome =
      !(fixtureTable.batch.inline_data.getD 0 none).isSome ∧
    fixtureTable.batch.WF) :=
  ⟨by decide, by decide,
    c4_row_mutual_exclusion (E := String) (fixtureRecords.map Except.ok)
      fixtureTable (by decide) 0 (by decide)⟩

/-- Claim C9: on a table built from valid records, iterating any in-bounds
range `[from, to)` with `from ≤ to ≤ row_count` never panics (no item is
the panic marker `none`) and yields only `Ok` items — the unwrap inside
`iter` is unreachable; moreover, on any table and any bounds, `iter`
never yields an `Err` item. -/
theorem c9_iter_total_on_built_tables {E : Type} (cs : List ChunkInfo)
    (hv : ∀ c ∈ cs, ∀ x ∈ c.coord.val, x < 2 ^ 64)
    (t : ManifestsTable)
    (hmk : mk_manifests_table (E := E) (cs.map Except.ok) = Except.ok t)
    (f tt : Nat) (hf : f ≤ tt) (ht : tt ≤ t.batch.num_rows) :
    (∀ x ∈ t.iter (some f) (some tt), ∃ c, x = some (Except.ok c)) ∧
    (∀ (tb : ManifestsTable) (fO tO : Option Nat)
        (x : Option (IcechunkResult ChunkInfo)),
      x ∈ tb.iter fO tO → ∀ e, x ≠ some (Except.error e)) := by
  have hts : t = sealTable cs := by
    rw [mk_manifests_table_map_ok] at hmk
    cases hmk
    rfl
  constructor
  · intro x hx
    unfold ManifestsTable.iter at hx
    simp only [Option.getD_some, List.mem_map] at hx
    obtain ⟨idx, hidx, hmap⟩ := hx
    have hbound : idx < cs.length := by
      have := List.mem_range'_1.mp hidx
      rw [hts, sealTable_num_rows] at ht
      omega
    rw [hts, get_row_sealTable cs idx hbound
      (hv cs[idx] (List.getElem_mem hbound))] at hmap
    exact ⟨cs[idx], hmap.symm⟩
  · intro tb fO tO x hx e
    unfold ManifestsTable.iter at hx
    simp only [List.mem_map] at hx
    obtain ⟨idx, -, hmap⟩ := hx
    intro hcontra
    rw [hcontra] at hmap
    cases hgr : tb.get_row idx with
    | none => rw [hgr] at hmap; cases hmap
    | some o =>
        cases o with
        | none => rw [hgr] at hmap; cases hmap
        | some c => rw [hgr] at hmap; cases hmap

theorem c9_iter_total_on_built_tables_witness :
    (∀ c ∈ fixtureRecords, ∀ x ∈ c.coord.val, x < 2 ^ 64) ∧
    (1 ≤ 3 ∧ 3 ≤ fixtureTable.batch.num_rows) ∧
    ((∀ x ∈ fixtureTable.iter (some 1) (some 3),
        ∃ c, x = some (Except.ok c)) ∧
    (∀ (tb : ManifestsTable) (fO tO : Option Nat)
        (x : Option (IcechunkResult ChunkInfo)),
      x ∈ tb.iter fO tO → ∀ e, x ≠ some (Except.error e))) :=
  ⟨by decide, ⟨by decide, by decide⟩,
    c9_iter_total_on_built_tables (E := String) fixtureRecords (by decide)
      fixtureTable (by decide) 1 3 (by decide) (by decide)⟩

/-- Claim C2: `get_chunk_info_index` returns nothing whenever
`to > row_count` or `from > to` (regardless of the coordinates); otherwise
it returns `some i` exactly when `i` is the smallest absolute row offset
in `[from, to)` whose stored coordinate bytes equal the encoding of
`coords`, and nothing when no such row exists.  `WF` is arrow's
equal-column-length batch invariant, and `toRow < 2 ^ 32` is the `u32`
type of `TableRegion`'s bounds. -/
theorem c2_find_row_characterization (t : ManifestsTable) (c : ChunkIndices)
    (r : TableRegion) (hwf : t.batch.WF) (hto : r.toRow < 2 ^ 32) :
    ((r.toRow > t.batch.num_rows ∨ r.fromRow > r.toRow) →
      t.get_chunk_info_index c r = none) ∧
    (r.toRow ≤ t.batch.num_rows → r.fromRow ≤ r.toRow →
      (∀ i, t.get_chunk_info_index c r = some i ↔
        (r.fromRow ≤ i ∧ i < r.toRow ∧
          t.batch.coords[i]? = some c.toBytes ∧
          ∀ j, r.fromRow ≤ j → j < i →
            t.batch.coords[j]? ≠ some c.toBytes)) ∧
      (t.get_chunk_info_index c r = none ↔
        ∀ j, r.fromRow ≤ j → j < r.toRow →
          t.batch.coords[j]? ≠ some c.toBytes)) := by
  constructor
  · intro h
    unfold ManifestsTable.get_chunk_info_index
    rw [if_pos h]
  · intro h1 h2
    have hcl : t.batch.coords.length = t.batch.num_rows := hwf.1
    have heq : t.get_chunk_info_index c r =
        match listPosition (fun x => x == c.toBytes)
            ((t.batch.coords.drop r.fromRow).take (r.toRow - r.fromRow)) with
        | none => none
        | some pos => if pos < 2 ^ 32 then some (pos + r.fromRow) else none := by
      unfold ManifestsTable.get_chunk_info_index
      rw [if_neg (by omega)]
    have hslen : ((t.batch.coords.drop r.fromRow).take
        (r.toRow - r.fromRow)).length = r.toRow - r.fromRow := by
      rw [List.length_take, List.length_drop]
      omega
    have hgetslice : ∀ k, k < r.toRow - r.fromRow →
        ((t.batch.coords.drop r.fromRow).take (r.toRow - r.fromRow))[k]? =
          t.batch.coords[r.fromRow + k]? := by
      intro k hk
      rw [List.getElem?_take, if_pos hk, List.getElem?_drop]
    cases hlp : listPosition (fun x => x == c.toBytes)
        ((t.batch.coords.drop r.fromRow).take (r.toRow - r.fromRow)) with
    | none =>
        rw [hlp] at heq
        have hall := (listPosition_eq_none_iff _ _).mp hlp
        have hnomatch : ∀ j, r.fromRow ≤ j → j < r.toRow →
            t.batch.coords[j]? ≠ some c.toBytes := by
          intro j hj1 hj2 hcontra
          have hk : j - r.fromRow < r.toRow - r.fromRow := by omega
          have hsl : ((t.batch.coords.drop r.fromRow).take
              (r.toRow - r.fromRow))[j - r.fromRow]? = some c.toBytes := by
            rw [hgetslice _ hk]
            have : r.fromRow + (j - r.fromRow) = j := by omega
            rw [this]
            exact hcontra
          have hmem : c.toBytes ∈
              (t.batch.coords.drop r.fromRow).take (r.toRow - r.fromRow) :=
            List.getElem?_mem hsl
          have := hall _ hmem
          simp at this
        refine ⟨?_, ?_⟩
        · intro i
          rw [heq]
          constructor
          · intro hc
            cases hc
          · rintro ⟨hi1, hi2, hi3, -⟩
            exact absurd hi3 (hnomatch i hi1 hi2)
        · rw [heq]
          exact ⟨fun _ => hnomatch, fun _ => rfl⟩
    | some pos =>
        rw [hlp] at heq
        obtain ⟨⟨x, hx, hpx⟩, hmin⟩ := (listPosition_eq_some_iff _ _ _).mp hlp
        have hxe : x = c.toBytes := by
          exact beq_iff_eq.mp hpx
        subst hxe
        have hposlt : pos < r.toRow - r.fromRow := by
          by_contra hcon
          rw [List.getElem?_eq_none (by omega)] at hx
          cases hx
        have heqf : t.get_chunk_info_index c r =
            if pos < 2 ^ 32 then some (pos + r.fromRow) else none := heq
        rw [if_pos (by omega)] at heqf
        have hfound : t.batch.coords[pos + r.fromRow]? = some c.toBytes := by
          have := hgetslice pos hposlt
          rw [this] at hx
          have harg : r.fromRow + pos = pos + r.fromRow := by omega
          rw [harg] at hx
          exact hx
        have hminabs : ∀ j, r.fromRow ≤ j → j < pos + r.fromRow →
            t.batch.coords[j]? ≠ some c.toBytes := by
          intro j hj1 hj2 hcontra
          obtain ⟨y, hy, hpy⟩ := hmin (j - r.fromRow) (by omega)
          rw [hgetslice _ (by omega)] at hy
          have harg : r.fromRow + (j - r.fromRow) = j := by omega
          rw [harg] at hy
          rw [hcontra] at hy
          have hyx : c.toBytes = y := by
            simpa using hy
          rw [← hyx] at hpy
          simp at hpy
        refine ⟨?_, ?_⟩
        · intro i
          rw [heqf]
          constructor
          · intro hi
            have hipos : i = pos + r.fromRow := by
              cases hi
              rfl
            subst hipos
            exact ⟨by omega, by omega, hfound, hminabs⟩
          · rintro ⟨hi1, hi2, hi3, himin⟩
            have : i = pos + r.fromRow := by
              rcases Nat.lt_trichotomy i (pos + r.fromRow) with hlt | heqi | hgt
              · exact absurd hi3 (hminabs i hi1 hlt)
              · exact heqi
              · exact absurd hfound (himin (pos + r.fromRow) (by omega) hgt)
            rw [this]
        · rw [heqf]
          constructor
          · intro hc
            cases hc
          · intro hnm
            exact absurd hfound (hnm (pos + r.fromRow) (by omega) (by omega))

theorem c2_find_row_characterization_witness :
    fixtureTable.batch.WF ∧ (3 : Nat) < 2 ^ 32 ∧
    (((3 > fixtureTable.batch.num_rows ∨ (1 : Nat) > 3) →
      fixtureTable.get_chunk_info_index ⟨[0, 0, 1]⟩ ⟨1, 3⟩ = none) ∧
    (3 ≤ fixtureTable.batch.num_rows → (1 : Nat) ≤ 3 →
      (∀ i, fixtureTable.get_chunk_info_index ⟨[0, 0, 1]⟩ ⟨1, 3⟩ = some i ↔
        (1 ≤ i ∧ i < 3 ∧
          fixtureTable.batch.coords[i]? =
            some (ChunkIndices.toBytes ⟨[0, 0, 1]⟩) ∧
          ∀ j, 1 ≤ j → j < i →
            fixtureTable.batch.coords[j]? ≠
              some (ChunkIndices.toBytes ⟨[0, 0, 1]⟩))) ∧
      (fixtureTable.get_chunk_info_index ⟨[0, 0, 1]⟩ ⟨1, 3⟩ = none ↔
        ∀ j, 1 ≤ j → j < 3 →
          fixtureTable.batch.coords[j]? ≠
            some (ChunkIndices.toBytes ⟨[0, 0, 1]⟩)))) :=
  ⟨by decide, by decide,
    c2_find_row_characterization fixtureTable ⟨[0, 0, 1]⟩ ⟨1, 3⟩
      (by decide) (by decide)⟩

/-- Claim C8 counterexample: `iter` defaults `to` to `num_rows() as u32`,
a truncating cast; on a table with `2 ^ 32` rows the claimed default
(`to = row_count`) fails — the default iteration is empty instead of
yielding one item per row. -/
theorem c8_counterexample :
    (ManifestsTable.mk hugeBatch).batch.num_rows = 2 ^ 32 ∧
    ManifestsTable.iter ⟨hugeBatch⟩ none none = [] := by
  have hnum : (ManifestsTable.mk hugeBatch).batch.num_rows = 2 ^ 32 := by
    show (List.replicate (2 ^ 32) (0 : NodeId)).length = 2 ^ 32
    rw [List.length_replicate]
  refine ⟨hnum, ?_⟩
  unfold ManifestsTable.iter
  rw [hnum, Nat.mod_self]
  rfl

/-- Claim C8 (amended): `iter(from?, to?)` defaults `from` to `0` and `to`
to `row_count` truncated to `u32` (which equals `row_count` whenever
`row_count < 2 ^ 32`); it is finite and yields exactly one item per row
offset in `[from, to)` in ascending order, the item at position `i` being
the decode of row `from + i`; independence of separate calls is inherent
in the functional model (each call maps over a fresh range). -/
theorem c8_iteration_shape (t : ManifestsTable) (fO tO : Option Nat) :
    t.iter fO tO =
      t.iter (some (fO.getD 0)) (some (tO.getD (t.batch.num_rows % 2 ^ 32))) ∧
    (t.batch.num_rows < 2 ^ 32 →
      t.iter none none = t.iter (some 0) (some t.batch.num_rows)) ∧
    (∀ f tt : Nat, (t.iter (some f) (some tt)).length = tt - f) ∧
    (∀ f tt i : Nat, i < tt - f → ∀ c : ChunkInfo,
      t.get_row (f + i) = some (some c) →
      (t.iter (some f) (some tt))[i]? = some (some (Except.ok c))) := by
  refine ⟨rfl, ?_, ?_, ?_⟩
  · intro h
    unfold ManifestsTable.iter
    rw [Nat.mod_eq_of_lt h]
    rfl
  · intro f tt
    unfold ManifestsTable.iter
    simp [List.length_range']
  · intro f tt i hi c hc
    unfold ManifestsTable.iter
    simp only [Option.getD_some, List.getElem?_map,
      List.getElem?_range' _ _ hi, Option.map_some', one_mul]
    rw [hc]

theorem c8_iteration_shape_witness :
    fixtureTable.batch.num_rows < 2 ^ 32 ∧
    fixtureTable.iter none none =
      fixtureTable.iter (some 0) (some fixtureTable.batch.num_rows) :=
  ⟨by decide, (c8_iteration_shape fixtureTable none none).2.1 (by decide)⟩

/-- Claim C7: the claim (with the spec) requires decode of a row whose
column nullability violates the mutual-exclusion invariant to raise a
`MalformedRow` error.  The code does not: `get_row` has no error channel
for this at all, and on a schema-conforming row with all three payload
columns null it silently fabricates a `Ref` payload from the column
defaults (the zeroed `chunk_id` buffer, the stored offset and length).
This theorem evaluates the code at that failing input. -/
theorem c7_malformed_row_not_raised :
    allNullRowBatch.WF ∧
    allNullRowBatch.inline_data.getD 0 none = none ∧
    allNullRowBatch.chunk_id.getD 0 none = none ∧
    allNullRowBatch.virtual_path.getD 0 none = none ∧
    ManifestsTable.get_row ⟨allNullRowBatch⟩ 0 =
      some (some ⟨1, ⟨[0]⟩, ChunkPayload.Ref ⟨ObjectId.zero, 7, 5⟩⟩) := by
  exact ⟨by decide, rfl, rfl, rfl, by decide⟩
